import Mathlib

/-!
Verification of the flame-graph renderer core (`src/flamegraph/mod.rs`).

Strings from the Rust source are modelled as `List Char`; `usize` values as
`Nat` (all the arithmetic involved here is guarded so that no wrap-around can
occur); `f64` quantities (percentages, `min_width`, `factor`, `font_width`) as
`ℚ`, which is exact for the ratios the code manipulates.

The `merge` submodule of the repository is not part of the provided sources
(only its callers are), so the handful of `merge` entry points used by
`from_lines` (`rfind_samples`, line parsing, `visual_width`,
`visual_start_and_end_pct`) are modelled from the specification and marked as
such in their doc comments.  Everything else is translated directly from
`src/flamegraph/mod.rs`.
-/

set_option autoImplicit false

namespace Inferno

/-- Shorthand: the character list of a string literal. -/
def chars (s : String) : List Char := s.toList

/-- ASCII whitespace recogniser; the Rust `str::trim` family uses Unicode
whitespace, of which only these occur in folded-stack input. -/
def isWS (c : Char) : Bool := c = ' ' || c = '\t' || c = '\n' || c = '\r'

/-- Model of `str::trim_start`. -/
def trimLeft (l : List Char) : List Char := l.dropWhile isWS

/-- Model of `str::trim_end`. -/
def trimRight (l : List Char) : List Char := (l.reverse.dropWhile isWS).reverse

/-- Model of `str::trim`. -/
def trim (l : List Char) : List Char := trimLeft (trimRight l)

/-- One step of splitting a character list at every occurrence of `c`,
mirroring Rust's `str::split(c)`: returns the first segment and the remaining
segments. -/
def splitChAux (c : Char) : List Char → List Char × List (List Char)
  | [] => ([], [])
  | x :: rest =>
    let r := splitChAux c rest
    if x = c then ([], r.1 :: r.2) else (x :: r.1, r.2)

/-- Rust's `str::split(c)`: the result is always non-empty, and separators are
not included in the segments. -/
def splitCh (c : Char) (l : List Char) : List (List Char) :=
  (splitChAux c l).1 :: (splitChAux c l).2

/-- `str::split(';')`, the frame-path splitter used throughout `from_lines`. -/
def splitSemi (l : List Char) : List (List Char) := splitCh ';' l

/-- Joining segments back with `';'`, the inverse of `splitSemi`; this is what
the `reverse_stack_order` loop in `from_lines` (mod.rs lines 508–513) builds
with `stack.push(';')` / `stack.push_str(func)`. -/
def joinSemi : List (List Char) → List Char
  | [] => []
  | [s] => s
  | s :: t :: rest => s ++ ';' :: joinSemi (t :: rest)

/-- A non-empty string of decimal digits. -/
def decDigits (l : List Char) : Bool := !l.isEmpty && l.all Char.isDigit

/-- Modelled from the spec (§4.1, §6 grammar `count1 := DIGIT+ ('.' DIGIT+)?`):
whether a token parses as a non-negative sample count.  The parsing itself
lives in the repository's `merge` module, which is not among the provided
sources. -/
def isNumToken (t : List Char) : Bool :=
  match splitCh '.' t with
  | [a] => decDigits a
  | [a, b] => decDigits a && decDigits b
  | _ => false

/-- Numeric value of a digit string. -/
def natOfDigits (l : List Char) : Nat :=
  l.foldl (fun n c => n * 10 + (c.toNat - '0'.toNat)) 0

/-- Modelled from the spec (§3 "Fractional counts are accepted: the fractional
part is stripped"): the integer value of a count token. -/
def tokenVal (t : List Char) : Nat := natOfDigits (t.takeWhile (· ≠ '.'))

/-- Modelled from the spec (§4.1: "the parser locates counts from the
**right**. In single-count mode the last whitespace-delimited token must parse
as a non-negative number"): `merge::rfind_samples`, returning the start index
of the final token together with its value when that token is numeric.  The
real function lives in the absent `merge` module; `from_lines` uses only the
index part (mod.rs lines 503–507). -/
def rfindSamples (l : List Char) : Option (Nat × Nat) :=
  let token := (l.reverse.takeWhile (fun c => c ≠ ' ')).reverse
  if isNumToken token then some (l.length - token.length, tokenVal token) else none

/-- Modelled from the spec (§4.1): single-count line parsing — the last token
is the count, the remaining prefix is the frame path. -/
def parseSingle (l : List Char) : Option (List Char × Nat) :=
  (rfindSamples l).map (fun p => (trim (l.take p.1), p.2))

/-- The frame names of a folded line: the `';'`-split of its frame path
(empty when the line does not parse). -/
def framesOf (l : List Char) : List (List Char) :=
  match parseSingle l with
  | some (path, _) => splitSemi path
  | none => []

/-- `tidy_lines` (mod.rs lines 457–462): trim every line, then drop lines that
are empty or start with `"# "`. -/
def tidyLines (lines : List (List Char)) : List (List Char) :=
  (lines.map trim).filter (fun l => !(l.isEmpty || l.take 2 == chars "# "))

/-- Modelled from the spec (§4.3: the merger's outputs include "the overall
total sample count"; §7: absent exactly when there are no parsable stacks):
the overall total sample count produced by `merge::frames`, which lives in the
absent `merge` module. -/
def overallTotal (tidied : List (List Char)) : Option Nat :=
  match tidied.filterMap (fun l => (parseSingle l).map (·.2)) with
  | [] => none
  | counts => some counts.sum

/-- The error kind surfaced by `from_lines`; `io::ErrorKind::InvalidData` in
the source (mod.rs line 592). -/
inductive RenderError
  | invalidData
deriving DecidableEq, Repr

/-- The observable outcome of a `from_lines` call: the messages logged at
error level, the text items written into the SVG, and the returned result. -/
structure RenderOutcome where
  errorLogs : List (List Char)
  svgTexts : List (List Char)
  result : Except RenderError Unit
deriving Repr

/-- `FrameWidthSource` from `src/flamegraph/mod.rs` (lines 388–404): the six
width policies for differential flame graphs. -/
inductive FrameWidthSource
  | Before
  | After
  | Difference
  | Common
  | AllSamples
  | Max
deriving DecidableEq, Repr

/-- `FrameWidthSource::apply` (mod.rs lines 406–437), translated clause by
clause; `usize` subtraction only happens under the guard that makes it safe,
so `Nat` subtraction is exact here. -/
def FrameWidthSource.apply (s : FrameWidthSource) (before after : Nat) : Nat :=
  match s with
  | .Before => before
  | .After => after
  | .Difference => if before > after then before - after else after - before
  | .Common => if before < after then before else after
  | .AllSamples => before + after
  | .Max => if before > after then before else after

/-- `Direction` (mod.rs lines 360–372). -/
inductive Direction
  | Straight
  | Inverted
deriving DecidableEq, Repr

/-- `TextTruncateDirection` (mod.rs lines 375–383). -/
inductive TextTruncateDirection
  | Left
  | Right
deriving DecidableEq, Repr

/-- The subset of `Options` (mod.rs lines 100–283) that the layout, padding,
tooltip and label logic reads. -/
structure Options where
  direction : Direction
  subtitle : Option (List Char)
  imageWidth : Option Nat
  frameHeight : Nat
  minWidth : ℚ
  fontSize : Nat
  fontWidth : ℚ
  textTruncateDirection : TextTruncateDirection
  countName : List Char
  factor : ℚ
deriving DecidableEq, Repr

/-- The `Default` impl for `Options` (mod.rs lines 315–356), restricted to the
fields modelled here, with the constants of the `defaults` module
(lines 82–98). -/
def defaultOptions : Options where
  direction := .Straight
  subtitle := none
  imageWidth := none
  frameHeight := 16
  minWidth := 1 / 100
  fontSize := 12
  fontWidth := 59 / 100
  textTruncateDirection := .Left
  countName := chars "samples"
  factor := 1

/-- `Options::ypad1` (mod.rs lines 287–301): top padding. -/
def ypad1 (o : Options) : Nat :=
  let subtitleHeight := if o.subtitle.isSome then o.fontSize * 2 else 0
  if o.direction = .Straight then
    o.fontSize * 3 + subtitleHeight
  else
    o.fontSize * 4 + subtitleHeight + 4

/-- `Options::ypad2` (mod.rs lines 304–312): bottom padding. -/
def ypad2 (o : Options) : Nat :=
  if o.direction = .Straight then
    o.fontSize * 2 + 10
  else
    o.fontSize + 10

/-- The input-validation behaviour of `from_lines` (mod.rs lines 489, 574–595):
lines are tidied, merged, and when the overall total sample count is absent
the function logs `"No stack counts found"` at error level, writes an SVG
whose only text item is the error banner, and returns `InvalidData`.  The
success branch streams the full SVG; its text items come from the merge /
layout pipeline (the absent `merge` module) and are not modelled here. -/
def fromLinesModel (_opt : Options) (lines : List (List Char)) : RenderOutcome :=
  let tidied := tidyLines lines
  match overallTotal tidied with
  | none =>
    { errorLogs := [chars "No stack counts found"]
      svgTexts := [chars "ERROR: No valid input provided to flamegraph"]
      result := .error .invalidData }
  | some _ =>
    { errorLogs := []
      svgTexts := []
      result := .ok () }

/-- The cursor loop of the base filter (mod.rs lines 541–548): walk the
`';'`-separated segments of the line from the right, subtracting each
segment's length; stop at the first segment found in `base`, otherwise also
consume the `';'` separator (`saturating_sub`, hence `Nat` subtraction). -/
def cursorLoop (base : List (List Char)) : List (List Char) → Nat → Nat
  | [], cursor => cursor
  | s :: rest, cursor =>
    if s ∈ base then cursor - s.length
    else cursorLoop base rest (cursor - s.length - 1)

/-- The base filter applied to one line (the `filter_map` closure of mod.rs
lines 540–554): run the cursor loop over `line.rsplit(';')` starting from
`line.len()`; drop the line when the final cursor is `0`, otherwise keep the
suffix `&line[cursor..]`. -/
def filterLine (base : List (List Char)) (line : List Char) : Option (List Char) :=
  let c := cursorLoop base (splitSemi line).reverse line.length
  if c = 0 then none else some (line.drop c)

/-- Index of the right-most segment that belongs to `base`, used to state what
the cursor loop computes. -/
def lastMatch (base : List (List Char)) : List (List Char) → Option Nat
  | [] => none
  | s :: rest =>
    match lastMatch base rest with
    | some j => some (j + 1)
    | none => if s ∈ base then some 0 else none

/-- Start offset of segment `j` inside the line obtained by joining `segs`
with `';'`. -/
def offAt (segs : List (List Char)) (j : Nat) : Nat :=
  ((segs.take j).map List.length).sum + j

/-- Length of the line obtained by joining `segs` with `';'`. -/
def lineLen (segs : List (List Char)) : Nat :=
  (segs.map List.length).sum + (segs.length - 1)

/-- `FrameLocation` (merge module): function name and depth; equality is by
both fields. -/
structure FrameLocation where
  function : List Char
  depth : Nat
deriving DecidableEq, Repr

/-- A timed frame as consumed by the rendering loop: location plus
`start_time` / `end_time` in the visual metric (sample counts, hence `Nat`).
The self/total counts are carried separately where needed. -/
structure TimedFrame where
  location : FrameLocation
  startTime : Nat
  endTime : Nat
deriving DecidableEq, Repr

/-- Modelled from the spec (§4.8 step 1: "drop any frame whose
`(end − start)/V < min_width/100`", with `min_width` in percent):
`TimedFrame::visual_width`, the frame's width as a percentage of the overall
total `V`.  The real function lives in the absent `merge` module. -/
def visualWidth (f : TimedFrame) (total : Nat) : ℚ :=
  100 * ((f.endTime - f.startTime : Nat) : ℚ) / (total : ℚ)

/-- The prune pass of `from_lines` (mod.rs lines 601–610): `retain` drops a
frame exactly when its visual width is strictly below `min_width`. -/
def pruneFrames (frames : List TimedFrame) (minWidth : ℚ) (total : Nat) :
    List TimedFrame :=
  frames.filter (fun f => if visualWidth f total < minWidth then false else true)

/-- The `depthmax` accumulator of the same `retain` pass (mod.rs lines
602–609): the running maximum of surviving depths, started at `0`. -/
def depthmaxOf (survivors : List TimedFrame) : Nat :=
  survivors.foldl (fun dm f => max dm f.location.depth) 0

/-- `imageheight` (mod.rs line 613):
`(depthmax + 1) * frame_height + ypad1 + ypad2`. -/
def imageHeight (opt : Options) (frames : List TimedFrame) (total : Nat) : Nat :=
  (depthmaxOf (pruneFrames frames opt.minWidth total) + 1) * opt.frameHeight
    + ypad1 opt + ypad2 opt

/-- Modelled from the spec (§4.8 step 4: `x1_pct = 100·start/V`,
`x2_pct = 100·end/V`): `TimedFrame::visual_start_and_end_pct` from the absent
`merge` module, used at mod.rs line 695. -/
def visualStartAndEndPct (f : TimedFrame) (total : Nat) : ℚ × ℚ :=
  (100 * (f.startTime : ℚ) / (total : ℚ), 100 * (f.endTime : ℚ) / (total : ℚ))

/-- `Rectangle::width_pct` (mod.rs lines 449–451) for the rectangle built at
mod.rs lines 711–718: `x2_pct - x1_pct`. -/
def rectWidthPct (f : TimedFrame) (total : Nat) : ℚ :=
  (visualStartAndEndPct f total).2 - (visualStartAndEndPct f total).1

/-- The frames for which the rendering loop emits a `<rect>`: exactly the
survivors of the prune pass (the loop at mod.rs line 694 ranges over the
retained `frames`). -/
def emittedFrames (opt : Options) (frames : List TimedFrame) (total : Nat) :
    List TimedFrame :=
  pruneFrames frames opt.minWidth total

/-- The per-line transform of the `reverse_stack_order` branch (mod.rs lines
499–521): locate the sample count(s) by scanning from the right (twice, to
skip an optional second count), split the frame path at every `';'`, reverse,
rejoin with `';'`, re-append the counts, and trim. -/
def reverseStackLine (line : List Char) : List Char :=
  let i1 := match rfindSamples line with
    | some p => p.1
    | none => line.length
  let i2 := match rfindSamples (line.take (i1 - 1)) with
    | some p => p.1
    | none => i1
  trim (joinSemi ((splitSemi (trim (line.take i2))).reverse) ++ ' ' :: line.drop i2)

/-- `deannotate` (mod.rs lines 1178–1187).  The source strips the suffix when
the last occurrence of `"_["` sits exactly 4 characters from the end of a
name ending in `']'` with the bracketed character in `"kwij"`; that holds
exactly when the name ends in `_[k]`, `_[w]`, `_[i]` or `_[j]`, which is the
form tested here. -/
def deannotate (f : List Char) : List Char :=
  match f.reverse with
  | ']' :: x :: '[' :: '_' :: _ =>
    if x = 'k' || x = 'w' || x = 'i' || x = 'j' then f.take (f.length - 4) else f
  | _ => f

/-- The `fitchars` computation (mod.rs lines 963–965): the truncation of
`width_pct / (100·font_size·font_width / image_width)`; the width is
non-negative so `trunc` coincides with the floor.  `image_width` defaults to
1200 (mod.rs lines 51, 597). -/
def fitcharsOf (opt : Options) (widthPct : ℚ) : Nat :=
  let imageWidth : ℚ := ((opt.imageWidth.getD 1200 : Nat) : ℚ)
  (⌊widthPct / (100 * (opt.fontSize : ℚ) * opt.fontWidth / imageWidth)⌋).toNat

/-- The label chosen for a given character budget (mod.rs lines 966–987):
with fewer than 3 characters of room no label is rendered; a deannotated name
shorter than the budget is kept whole; otherwise the first `fitchars − 2`
characters are kept and `".."` appended.  No field of `opt` — in particular
not `text_truncate_direction` — is consulted in this logic. -/
def labelFor (_opt : Options) (function : List Char) (fitchars : Nat) : List Char :=
  if 3 ≤ fitchars then
    let f := deannotate function
    if f.length < fitchars then f
    else f.take (fitchars - 2) ++ chars ".."
  else
    []

/-- The in-rect label of a frame (mod.rs lines 963–987). -/
def frameLabel (opt : Options) (function : List Char) (widthPct : ℚ) : List Char :=
  labelFor opt function (fitcharsOf opt widthPct)

/-- Decimal digits of a natural number. -/
def natDigits (n : Nat) : List Char := (toString n).toList

/-- Model of Rust's `format!("{pct:.2}%")` over exact rationals: round the
percentage to hundredths and print it with exactly two decimals.  (`f64`
formatting rounds the stored value to the nearest two-decimal string; over ℚ
the corresponding operation is rounding `q·100` to the nearest integer.) -/
def formatPct2 (q : ℚ) : List Char :=
  let sign := if q < 0 then chars "-" else []
  let n := (round (|q| * 100) : ℤ).toNat
  sign ++ natDigits (n / 100)
    ++ '.' :: (if n % 100 < 10 then '0' :: natDigits (n % 100) else natDigits (n % 100))
    ++ chars "%"

/-- `get_pct` (mod.rs line 664): `(100·s) / (s_max · factor)`. -/
def getPct (s : ℤ) (sMax : Nat) (factor : ℚ) : ℚ :=
  ((100 * s : ℤ) : ℚ) / ((sMax : ℚ) * factor)

/-- The `samples` value of `get_count_and_pct_txt` (mod.rs line 670):
`(s · factor).round() as usize`. -/
def samplesOf (s : Nat) (factor : ℚ) : Nat := (round ((s : ℚ) * factor)).toNat

/-- The `pct` value of `get_count_and_pct_txt` (mod.rs line 675). -/
def pctOf (s sMax : Nat) (factor : ℚ) : ℚ := getPct (samplesOf s factor) sMax factor

/-- The `pct_text` value of `get_count_and_pct_txt` (mod.rs lines 676–679):
the two-decimal percentage, replaced by `"100%"` for the *all* frame when it
prints as `"100.00%"`. -/
def pctTextOf (s sMax : Nat) (factor : ℚ) (isAll : Bool) : List Char :=
  let t := formatPct2 (pctOf s sMax factor)
  if isAll && (t == chars "100.00%") then chars "100%" else t

/-- Thousands separators (`Locale::en`, mod.rs lines 671–674). -/
def formatThousands (n : Nat) : List Char :=
  let ds := natDigits n
  let k := ds.length
  (ds.enum.map (fun p =>
    if p.1 ≠ 0 ∧ (k - p.1) % 3 = 0 then [',', p.2] else [p.2])).flatten

/-- `get_count_and_pct_txt` (mod.rs lines 669–681). -/
def getCountAndPctTxt (s sMax : Nat) (factor : ℚ) (isAll : Bool)
    (countName : List Char) : List Char :=
  formatThousands (samplesOf s factor) ++ ' ' :: countName
    ++ ',' :: ' ' :: pctTextOf s sMax factor isAll

/-- `is_the_all_frame` (mod.rs line 720): empty function name at depth 0. -/
def isTheAllFrame (loc : FrameLocation) : Bool :=
  loc.function.isEmpty && loc.depth == 0

/-- A concrete timed-frame list for evaluating the layout pipeline: a root
spanning all 10 samples, a full-width child at depth 1, and a 40 %-wide child
at depth 2. -/
def exampleFrames : List TimedFrame :=
  [⟨⟨[], 0⟩, 0, 10⟩, ⟨⟨chars "a", 1⟩, 0, 10⟩, ⟨⟨chars "b", 2⟩, 0, 4⟩]

end Inferno

namespace Inferno

/-- C1: `FrameWidthSource::apply` projects `(before, after)` to `before`,
`after`, `|after − before|`, `min`, `before + after` and `max` for the six
policies respectively. -/
theorem frame_width_source_apply_matches_policies (before after : Nat) :
    FrameWidthSource.apply .Before before after = before ∧
    FrameWidthSource.apply .After before after = after ∧
    FrameWidthSource.apply .Difference before after = ((after : ℤ) - before).natAbs ∧
    FrameWidthSource.apply .Common before after = min before after ∧
    FrameWidthSource.apply .AllSamples before after = before + after ∧
    FrameWidthSource.apply .Max before after = max before after := by
  refine ⟨rfl, rfl, ?_, ?_, rfl, ?_⟩ <;> simp only [FrameWidthSource.apply] <;> split <;> omega

/-- C8: the top padding is `font_size·3` plus `font_size·2` when a subtitle is
present in the straight direction, and that value plus `font_size + 4` when
inverted; the bottom padding is `font_size·2 + 10` straight and
`font_size + 10` inverted. -/
theorem ypad_formulas (o : Options) :
    ypad1 o =
      (if o.direction = .Straight then
        o.fontSize * 3 + (if o.subtitle.isSome then o.fontSize * 2 else 0)
      else
        (o.fontSize * 3 + (if o.subtitle.isSome then o.fontSize * 2 else 0))
          + (o.fontSize + 4)) ∧
    ypad2 o =
      (if o.direction = .Straight then o.fontSize * 2 + 10 else o.fontSize + 10) := by
  constructor
  · simp only [ypad1]
    split <;> ring
  · rfl

/-- C2: when no tidied input line parses (so the overall total sample count is
absent), `from_lines` writes an SVG whose text is the error banner, logs
`"No stack counts found"` at error level, and returns `InvalidData`. -/
theorem no_parsable_input_yields_error_svg (opt : Options) (lines : List (List Char))
    (h : ∀ l ∈ tidyLines lines, parseSingle l = none) :
    (fromLinesModel opt lines).svgTexts
        = [chars "ERROR: No valid input provided to flamegraph"] ∧
    (fromLinesModel opt lines).errorLogs = [chars "No stack counts found"] ∧
    (fromLinesModel opt lines).result = .error .invalidData := by
  have hnil : (tidyLines lines).filterMap (fun l => (parseSingle l).map (·.2)) = [] := by
    rw [List.filterMap_eq_nil_iff]
    intro a ha
    rw [h a ha]
    rfl
  have htot : overallTotal (tidyLines lines) = none := by
    unfold overallTotal
    rw [hnil]
  simp [fromLinesModel, htot]

/-- Witness for C2 at a concrete input: a comment line, a blank line, and a
line with no sample count. -/
theorem no_parsable_input_yields_error_svg_witness :
    (∀ l ∈ tidyLines [chars "# comment", chars "   ", chars "junk"],
        parseSingle l = none) ∧
    ((fromLinesModel defaultOptions [chars "# comment", chars "   ", chars "junk"]).svgTexts
        = [chars "ERROR: No valid input provided to flamegraph"] ∧
      (fromLinesModel defaultOptions
          [chars "# comment", chars "   ", chars "junk"]).errorLogs
        = [chars "No stack counts found"] ∧
      (fromLinesModel defaultOptions [chars "# comment", chars "   ", chars "junk"]).result
        = .error .invalidData) :=
  ⟨by decide, no_parsable_input_yields_error_svg defaultOptions _ (by decide)⟩

theorem joinSemi_two (s t : List Char) (rest : List (List Char)) :
    joinSemi (s :: t :: rest) = s ++ ';' :: joinSemi (t :: rest) := rfl

theorem joinSemi_splitChAux (l : List Char) :
    joinSemi ((splitChAux ';' l).1 :: (splitChAux ';' l).2) = l := by
  induction l with
  | nil => rfl
  | cons c rest ih =>
    simp only [splitChAux]
    by_cases hc : c = ';'
    · subst hc
      rw [if_pos rfl, joinSemi_two, List.nil_append, ih]
    · rw [if_neg hc]
      cases h2 : (splitChAux ';' rest).2 with
      | nil =>
        rw [h2] at ih
        rw [show joinSemi [(splitChAux ';' rest).1] = (splitChAux ';' rest).1 from rfl] at ih
        rw [show joinSemi [c :: (splitChAux ';' rest).1] = c :: (splitChAux ';' rest).1 from rfl,
          ih]
      | cons x xs =>
        rw [h2] at ih
        rw [joinSemi_two] at ih
        rw [joinSemi_two, List.cons_append, ih]

theorem splitSemi_ne_nil (l : List Char) : splitSemi l ≠ [] := by
  simp [splitSemi, splitCh]

theorem joinSemi_splitSemi (l : List Char) : joinSemi (splitSemi l) = l :=
  joinSemi_splitChAux l

theorem length_joinSemi (segs : List (List Char)) (h : segs ≠ []) :
    (joinSemi segs).length = lineLen segs := by
  induction segs with
  | nil => cases h rfl
  | cons s rest ih =>
    cases rest with
    | nil => simp [joinSemi, lineLen]
    | cons t ts =>
      rw [joinSemi_two]
      simp only [List.length_append, List.length_cons]
      rw [ih (by simp)]
      simp only [lineLen, List.map_cons, List.sum_cons, List.length_cons]
      omega

theorem lastMatch_lt (base : List (List Char)) :
    ∀ segs j, lastMatch base segs = some j → j < segs.length := by
  intro segs
  induction segs with
  | nil => intro j h; simp [lastMatch] at h
  | cons s rest ih =>
    intro j h
    cases hm : lastMatch base rest with
    | some k =>
      simp only [lastMatch, hm, Option.some.injEq] at h
      have := ih k hm
      simp only [List.length_cons]
      omega
    | none =>
      simp only [lastMatch, hm] at h
      by_cases hs : s ∈ base
      · rw [if_pos hs, Option.some.injEq] at h
        simp [← h]
      · rw [if_neg hs] at h
        cases h

theorem lastMatch_append (base : List (List Char)) (init : List (List Char))
    (last : List Char) :
    lastMatch base (init ++ [last]) =
      if last ∈ base then some init.length else lastMatch base init := by
  induction init with
  | nil => simp [lastMatch]
  | cons s rest ih =>
    by_cases h : last ∈ base
    · simp only [List.cons_append, lastMatch, List.append_eq, ih, if_pos h,
        List.length_cons]
    · simp only [List.cons_append, lastMatch, List.append_eq, ih, if_neg h]

theorem cursorLoop_spec (base : List (List Char)) (segs : List (List Char))
    (h : segs ≠ []) :
    cursorLoop base segs.reverse (lineLen segs) =
      (match lastMatch base segs with
        | none => 0
        | some j => offAt segs j) := by
  induction segs using List.reverseRecOn with
  | nil => cases h rfl
  | append_singleton init last ih =>
    have hrev : (init ++ [last]).reverse = last :: init.reverse := by simp
    rw [hrev, lastMatch_append]
    simp only [cursorLoop]
    by_cases hb : last ∈ base
    · rw [if_pos hb, if_pos hb]
      have e1 : lineLen (init ++ [last])
          = (init.map List.length).sum + last.length + init.length := by
        simp only [lineLen, List.map_append, List.sum_append, List.map_cons,
          List.map_nil, List.sum_cons, List.sum_nil, List.length_append,
          List.length_cons, List.length_nil]
        omega
      have e2 : offAt (init ++ [last]) init.length
          = (init.map List.length).sum + init.length := by
        simp only [offAt, List.take_left]
      rw [e1]
      show _ = offAt (init ++ [last]) init.length
      rw [e2]
      omega
    · rw [if_neg hb, if_neg hb]
      by_cases hinit : init = []
      · subst hinit
        simp only [List.reverse_nil, cursorLoop, lastMatch, List.nil_append,
          lineLen, List.map_cons, List.map_nil, List.sum_cons, List.sum_nil,
          List.length_cons, List.length_nil]
        omega
      · have hlen1 : 1 ≤ init.length := by
          cases init with
          | nil => exact absurd rfl hinit
          | cons a as => simp
        have e3 : lineLen (init ++ [last]) - last.length - 1 = lineLen init := by
          simp only [lineLen, List.map_append, List.sum_append, List.map_cons,
            List.map_nil, List.sum_cons, List.sum_nil, List.length_append,
            List.length_cons, List.length_nil]
          omega
        rw [e3, ih hinit]
        cases hm : lastMatch base init with
        | none => simp only [hm]
        | some j =>
          have hj := lastMatch_lt base init j hm
          have e4 : offAt (init ++ [last]) j = offAt init j := by
            simp only [offAt]
            rw [List.take_append_of_le_length (by omega)]
          simp only [hm, e4]

theorem drop_offAt (segs : List (List Char)) (j : Nat) :
    (joinSemi segs).drop (offAt segs j) = joinSemi (segs.drop j) := by
  induction j generalizing segs with
  | zero => simp [offAt]
  | succ j ih =>
    cases segs with
    | nil => simp [offAt, joinSemi]
    | cons s rest =>
      cases rest with
      | nil =>
        have h1 : offAt [s] (j + 1) = s.length + (j + 1) := by
          simp [offAt, List.take_succ_cons]
        show s.drop (offAt [s] (j + 1)) = joinSemi ((s :: []).drop (j + 1))
        rw [h1, List.drop_succ_cons, List.drop_nil,
          List.drop_eq_nil_of_le (by omega)]
        rfl
      | cons t ts =>
        rw [joinSemi_two]
        have hoff : offAt (s :: t :: ts) (j + 1) = s.length + (1 + offAt (t :: ts) j) := by
          simp only [offAt, List.take_succ_cons, List.map_cons, List.sum_cons]
          omega
        rw [hoff, List.drop_append]
        rw [Nat.add_comm 1 (offAt (t :: ts) j), List.drop_succ_cons]
        rw [show (s :: t :: ts).drop (j + 1) = (t :: ts).drop j from List.drop_succ_cons]
        exact ih (t :: ts)

theorem filterLine_spec (base : List (List Char)) (line : List Char) :
    filterLine base line =
      (match lastMatch base (splitSemi line) with
        | none => none
        | some 0 => none
        | some (j+1) => some (joinSemi ((splitSemi line).drop (j+1)))) := by
  have key : ∀ segs : List (List Char), segs ≠ [] →
      (if cursorLoop base segs.reverse (lineLen segs) = 0 then
        (none : Option (List Char))
      else
        some ((joinSemi segs).drop (cursorLoop base segs.reverse (lineLen segs)))) =
      (match lastMatch base segs with
        | none => none
        | some 0 => none
        | some (j+1) => some (joinSemi (segs.drop (j+1)))) := by
    intro segs hne
    rw [cursorLoop_spec base segs hne]
    cases hm : lastMatch base segs with
    | none => simp
    | some j =>
      cases j with
      | zero => simp [offAt]
      | succ j =>
        have hpos : offAt segs (j + 1) ≠ 0 := by
          simp only [offAt]
          omega
        rw [if_neg hpos, drop_offAt]
  have h := key (splitSemi line) (splitSemi_ne_nil line)
  rw [joinSemi_splitSemi] at h
  unfold filterLine
  rw [show line.length = lineLen (splitSemi line) by
    conv_lhs => rw [← joinSemi_splitSemi line]
    exact length_joinSemi _ (splitSemi_ne_nil line)]
  exact h

theorem splitChAux_no_sep {c : Char} :
    ∀ {l : List Char}, c ∉ l → splitChAux c l = (l, []) := by
  intro l h
  induction l with
  | nil => rfl
  | cons x rest ih =>
    have hx : ¬x = c := fun he => h (he ▸ List.mem_cons_self x rest)
    simp only [splitChAux, if_neg hx, ih (fun hm => h (List.mem_cons_of_mem x hm))]

/-- C4 (amended): with a non-empty base set (and the reverse / flame-chart /
no-sort modes off), each input line is compared with `B` segment-wise on the
raw `';'`-split of the whole trimmed line (so the last segment still carries
the trailing count), and is truncated from the left to begin at the right-most
segment that is in `B`; a line with no matching segment — and also a line
whose right-most matching segment starts at offset `0`, i.e. whose only match
is its first segment — is dropped. -/
theorem base_filter_truncates_at_rightmost_matching_segment
    (base : List (List Char)) (line : List Char) :
    filterLine base line =
      (match lastMatch base (splitSemi line) with
        | none => none
        | some 0 => none
        | some (j+1) => some (joinSemi ((splitSemi line).drop (j+1)))) :=
  filterLine_spec base line

/-- C4 counterexample: the stack `"b;c 1"` contains the frame `"b"` of the
base set as its first frame, so the claim says it is kept (truncated from the
left to begin at that frame, which is a no-op here); the code drops it,
because the cursor loop ends at offset `0`. -/
theorem base_filter_drops_match_at_line_start :
    framesOf (chars "b;c 1") = [chars "b", chars "c"] ∧
    chars "b" ∈ framesOf (chars "b;c 1") ∧
    filterLine [chars "b"] (chars "b;c 1") = none := by decide

/-- C10: the base filter splits the raw line, so the final segment is
`"b " ++ count` (frame name plus trailing sample count) rather than the leaf
frame name `"b"`; a base symbol occurring only as the leaf frame therefore
never matches and the stack is dropped. -/
theorem base_filter_leaf_carries_count (count : List Char) (_h1 : count ≠ [])
    (h2 : (';' : Char) ∉ count) :
    splitSemi (chars "a;b " ++ count) = [chars "a", chars "b " ++ count] ∧
    filterLine [chars "b"] (chars "a;b " ++ count) = none := by
  have hsplit : splitSemi (chars "a;b " ++ count) = [chars "a", 'b' :: ' ' :: count] := by
    rw [show chars "a;b " ++ count = 'a' :: ';' :: 'b' :: ' ' :: count from rfl]
    simp only [splitSemi, splitCh, splitChAux, splitChAux_no_sep h2]
    simp [chars]
  have hB : ('b' :: ' ' :: count) ∉ [chars "b"] := by
    intro hmem
    rw [List.mem_singleton] at hmem
    have := congrArg List.length hmem
    simp [chars] at this
  have hA : chars "a" ∉ [chars "b"] := by decide
  have hmatch : lastMatch [chars "b"] [chars "a", 'b' :: ' ' :: count] = none := by
    simp only [lastMatch, if_neg hB, if_neg hA]
  refine ⟨by rw [hsplit]; rfl, ?_⟩
  rw [filterLine_spec, hsplit, hmatch]

/-- Witness for C10 with the concrete count `"1"`. -/
theorem base_filter_leaf_carries_count_witness :
    ((chars "1" ≠ []) ∧ (';' : Char) ∉ chars "1") ∧
    (splitSemi (chars "a;b " ++ chars "1") = [chars "a", chars "b " ++ chars "1"] ∧
      filterLine [chars "b"] (chars "a;b " ++ chars "1") = none) :=
  ⟨⟨by decide, by decide⟩,
    base_filter_leaf_carries_count (chars "1") (by decide) (by decide)⟩

theorem mem_pruneFrames (frames : List TimedFrame) (minW : ℚ) (total : Nat)
    (f : TimedFrame) :
    f ∈ pruneFrames frames minW total ↔ f ∈ frames ∧ ¬visualWidth f total < minW := by
  unfold pruneFrames
  rw [List.mem_filter]
  constructor
  · rintro ⟨hf, hp⟩
    refine ⟨hf, ?_⟩
    by_cases h : visualWidth f total < minW
    · rw [if_pos h] at hp
      cases hp
    · exact h
  · rintro ⟨hf, hp⟩
    exact ⟨hf, by rw [if_neg hp]⟩

theorem rectWidthPct_eq_visualWidth (f : TimedFrame) (total : Nat)
    (h : f.startTime ≤ f.endTime) : rectWidthPct f total = visualWidth f total := by
  unfold rectWidthPct visualStartAndEndPct visualWidth
  rw [Nat.cast_sub h]
  ring

/-- C3: a frame survives to the rendering loop only if its visual width is at
least `min_width` percent of the overall total; every frame below that
threshold is pruned before any rectangle is emitted, and every emitted
rectangle is at least `min_width` percent wide. -/
theorem min_width_prune (opt : Options) (frames : List TimedFrame) (total : Nat)
    (hse : ∀ f ∈ frames, f.startTime ≤ f.endTime) :
    (∀ f ∈ emittedFrames opt frames total, opt.minWidth ≤ visualWidth f total) ∧
    (∀ f ∈ frames,
      visualWidth f total < opt.minWidth → f ∉ emittedFrames opt frames total) ∧
    (∀ f ∈ emittedFrames opt frames total, opt.minWidth ≤ rectWidthPct f total) := by
  refine ⟨?_, ?_, ?_⟩
  · intro f hf
    unfold emittedFrames at hf
    rw [mem_pruneFrames] at hf
    exact not_lt.mp hf.2
  · intro f _ hlt hmem
    unfold emittedFrames at hmem
    rw [mem_pruneFrames] at hmem
    exact hmem.2 hlt
  · intro f hf
    unfold emittedFrames at hf
    rw [mem_pruneFrames] at hf
    rw [rectWidthPct_eq_visualWidth f total (hse f hf.1)]
    exact not_lt.mp hf.2

/-- Witness for C3 at a concrete input: three frames over a total of 20000
samples, the last one 0.005 % wide and hence pruned under the default
`min_width` of 0.01 %. -/
theorem min_width_prune_witness :
    (∀ f ∈ ([⟨⟨[], 0⟩, 0, 20000⟩, ⟨⟨chars "a", 1⟩, 0, 19999⟩,
        ⟨⟨chars "b", 1⟩, 19999, 20000⟩] : List TimedFrame),
      f.startTime ≤ f.endTime) ∧
    ((∀ f ∈ emittedFrames defaultOptions
        ([⟨⟨[], 0⟩, 0, 20000⟩, ⟨⟨chars "a", 1⟩, 0, 19999⟩,
          ⟨⟨chars "b", 1⟩, 19999, 20000⟩] : List TimedFrame) 20000,
      defaultOptions.minWidth ≤ visualWidth f 20000) ∧
    (∀ f ∈ ([⟨⟨[], 0⟩, 0, 20000⟩, ⟨⟨chars "a", 1⟩, 0, 19999⟩,
          ⟨⟨chars "b", 1⟩, 19999, 20000⟩] : List TimedFrame),
      visualWidth f 20000 < defaultOptions.minWidth →
        f ∉ emittedFrames defaultOptions
          ([⟨⟨[], 0⟩, 0, 20000⟩, ⟨⟨chars "a", 1⟩, 0, 19999⟩,
            ⟨⟨chars "b", 1⟩, 19999, 20000⟩] : List TimedFrame) 20000) ∧
    (∀ f ∈ emittedFrames defaultOptions
        ([⟨⟨[], 0⟩, 0, 20000⟩, ⟨⟨chars "a", 1⟩, 0, 19999⟩,
          ⟨⟨chars "b", 1⟩, 19999, 20000⟩] : List TimedFrame) 20000,
      defaultOptions.minWidth ≤ rectWidthPct f 20000)) :=
  ⟨by decide, min_width_prune defaultOptions _ 20000 (by decide)⟩

theorem foldl_max_init_le (l : List TimedFrame) :
    ∀ a : Nat, a ≤ l.foldl (fun dm g => max dm g.location.depth) a := by
  induction l with
  | nil => intro a; exact le_refl a
  | cons x xs ih => intro a; exact le_trans (le_max_left _ _) (ih _)

theorem foldl_max_le_of_mem (l : List TimedFrame) :
    ∀ (a : Nat), ∀ f ∈ l,
      f.location.depth ≤ l.foldl (fun dm g => max dm g.location.depth) a := by
  induction l with
  | nil => intro a f hf; cases hf
  | cons x xs ih =>
    intro a f hf
    rcases List.mem_cons.mp hf with h | h
    · subst h
      exact le_trans (le_max_right a _) (foldl_max_init_le xs _)
    · exact ih _ f h

theorem foldl_max_attained (l : List TimedFrame) :
    ∀ a : Nat, l.foldl (fun dm g => max dm g.location.depth) a = a ∨
      ∃ f ∈ l, l.foldl (fun dm g => max dm g.location.depth) a = f.location.depth := by
  induction l with
  | nil => intro a; exact Or.inl rfl
  | cons x xs ih =>
    intro a
    rcases ih (max a x.location.depth) with h | ⟨f, hf, he⟩
    · by_cases hc : x.location.depth ≤ a
      · left
        rw [List.foldl_cons, h]
        omega
      · right
        refine ⟨x, List.mem_cons_self x xs, ?_⟩
        rw [List.foldl_cons, h]
        omega
    · right
      exact ⟨f, List.mem_cons_of_mem _ hf, by rw [List.foldl_cons]; exact he⟩

/-- C5: the emitted image height is
`(depthmax + 1) · frame_height + ypad_top + ypad_bottom`, where `depthmax` is
the maximum depth among the frames surviving the `min_width` prune. -/
theorem image_height_formula (opt : Options) (frames : List TimedFrame)
    (total : Nat) (hne : pruneFrames frames opt.minWidth total ≠ []) :
    (∀ f ∈ pruneFrames frames opt.minWidth total,
      f.location.depth ≤ depthmaxOf (pruneFrames frames opt.minWidth total)) ∧
    (∃ f ∈ pruneFrames frames opt.minWidth total,
      f.location.depth = depthmaxOf (pruneFrames frames opt.minWidth total)) ∧
    imageHeight opt frames total =
      (depthmaxOf (pruneFrames frames opt.minWidth total) + 1) * opt.frameHeight
        + ypad1 opt + ypad2 opt := by
  refine ⟨fun f hf => foldl_max_le_of_mem _ 0 f hf, ?_, rfl⟩
  rcases foldl_max_attained (pruneFrames frames opt.minWidth total) 0 with h | ⟨f, hf, he⟩
  · obtain ⟨f, hf⟩ := List.exists_mem_of_ne_nil _ hne
    refine ⟨f, hf, ?_⟩
    have h1 := foldl_max_le_of_mem (pruneFrames frames opt.minWidth total) 0 f hf
    unfold depthmaxOf
    omega
  · exact ⟨f, hf, he.symm⟩

/-- Witness for C5 at a concrete input: all three frames of `exampleFrames`
survive and the deepest surviving depth is 2. -/
theorem image_height_formula_witness :
    pruneFrames exampleFrames defaultOptions.minWidth 10 ≠ [] ∧
    ((∀ f ∈ pruneFrames exampleFrames defaultOptions.minWidth 10,
      f.location.depth
        ≤ depthmaxOf (pruneFrames exampleFrames defaultOptions.minWidth 10)) ∧
    (∃ f ∈ pruneFrames exampleFrames defaultOptions.minWidth 10,
      f.location.depth
        = depthmaxOf (pruneFrames exampleFrames defaultOptions.minWidth 10)) ∧
    imageHeight defaultOptions exampleFrames 10 =
      (depthmaxOf (pruneFrames exampleFrames defaultOptions.minWidth 10) + 1)
          * defaultOptions.frameHeight + ypad1 defaultOptions
          + ypad2 defaultOptions) := by
  have heval : pruneFrames exampleFrames defaultOptions.minWidth 10 = exampleFrames := by
    simp only [pruneFrames, exampleFrames, defaultOptions, visualWidth,
      List.filter_cons, List.filter_nil]
    norm_num
  have hne : pruneFrames exampleFrames defaultOptions.minWidth 10 ≠ [] := by
    rw [heval]
    simp [exampleFrames]
  exact ⟨hne, image_height_formula defaultOptions exampleFrames 10 hne⟩

/-- C9: in the `reverse_stack_order` branch the frame path is split at every
`';'` before being reversed and rejoined, so the frame name `[u8; 8]` of the
stack `a;[u8; 8]` is broken apart in the reversed line, while the
right-to-left scan only locates the sample count `1`. -/
theorem reverse_stack_splits_frame_names_at_semicolons :
    parseSingle (chars "a;[u8; 8] 1") = some (chars "a;[u8; 8]", 1) ∧
    splitSemi (chars "a;[u8; 8]") = [chars "a", chars "[u8", chars " 8]"] ∧
    rfindSamples (chars "a;[u8; 8] 1") = some (10, 1) ∧
    reverseStackLine (chars "a;[u8; 8] 1") = chars "8];[u8;a 1" := by decide

/-- C6 (code evaluation at the failing input): a rectangle 3 % wide under the
default metrics fits `fitchars = 5` characters, and the eight-character name
`abcdefgh` is rendered as `abc..` — the first `fitchars − 2` characters plus
`".."` — for `Left` and `Right` `text_truncate_direction` alike: the
rendering loop never reads the option. -/
theorem frame_label_ignores_truncate_direction :
    frameLabel { defaultOptions with textTruncateDirection := .Left }
        (chars "abcdefgh") 3 = chars "abc.." ∧
    frameLabel { defaultOptions with textTruncateDirection := .Right }
        (chars "abcdefgh") 3 = chars "abc.." ∧
    fitcharsOf defaultOptions 3 = 5 := by
  have hfit : ∀ o : Options, o.imageWidth = none → o.fontSize = 12 →
      o.fontWidth = 59 / 100 → fitcharsOf o 3 = 5 := by
    intro o h1 h2 h3
    simp only [fitcharsOf, h1, h2, h3, Option.getD]
    have h4 : (3 : ℚ) / (100 * ((12 : Nat) : ℚ) * (59 / 100) / ((1200 : Nat) : ℚ))
        = 300 / 59 := by
      push_cast
      norm_num
    rw [h4]
    have h5 : ⌊(300 / 59 : ℚ)⌋ = 5 := by norm_num [Int.floor_eq_iff]
    rw [h5]
    rfl
  refine ⟨?_, ?_, hfit defaultOptions rfl rfl rfl⟩
  · rw [frameLabel, hfit _ rfl rfl rfl]
    decide
  · rw [frameLabel, hfit _ rfl rfl rfl]
    decide

theorem formatPct2_has_dot (q : ℚ) : ('.' : Char) ∈ formatPct2 q := by
  unfold formatPct2
  simp

theorem formatPct2_ne_100 (q : ℚ) : formatPct2 q ≠ chars "100%" := by
  intro he
  have hdot := formatPct2_has_dot q
  rw [he] at hdot
  exact absurd hdot (by decide)

/-- C7: in single-count mode, the tooltip percent text of the synthetic *all*
frame (empty function name at depth 0) is exactly `"100%"` precisely when the
two-decimal formatting of the percentage would be `"100.00%"`; for any other
frame the percent text is the plain two-decimal formatting, and even for the
*all* frame it is either `"100%"` or the two-decimal formatting. -/
theorem all_frame_pct_text (s sMax : Nat) (factor : ℚ) :
    (pctTextOf s sMax factor true = chars "100%" ↔
      formatPct2 (pctOf s sMax factor) = chars "100.00%") ∧
    pctTextOf s sMax factor false = formatPct2 (pctOf s sMax factor) ∧
    (pctTextOf s sMax factor true = chars "100%" ∨
      pctTextOf s sMax factor true = formatPct2 (pctOf s sMax factor)) ∧
    isTheAllFrame ⟨[], 0⟩ = true := by
  refine ⟨?_, by unfold pctTextOf; simp, ?_, rfl⟩
  · unfold pctTextOf
    by_cases h : formatPct2 (pctOf s sMax factor) = chars "100.00%"
    · simp [h]
    · have hb : (formatPct2 (pctOf s sMax factor) == chars "100.00%") = false := by
        simp [h]
      simp only [hb, Bool.and_false, Bool.false_eq_true, if_false]
      exact iff_of_false (formatPct2_ne_100 _) h
  · unfold pctTextOf
    by_cases h : formatPct2 (pctOf s sMax factor) = chars "100.00%"
    · left
      simp [h]
    · right
      have hb : (formatPct2 (pctOf s sMax factor) == chars "100.00%") = false := by
        simp [h]
      simp only [hb, Bool.and_false, Bool.false_eq_true, if_false]

end Inferno
